/-
  Verification of the adncli RSS reader (Go) against its specification.

  The repository holds two near-duplicate variants of the program:
  variant A (`removeTags`, `fmt.Sscanf`, map category table, one-shot `Run`
  whose caller `main` exits with failure on any error) and
  variant B (`cleanText`, `strconv.Atoi`, slice category table, interactive
  loop in `Run` that re-prompts on every error).

  The pure text pipeline (regex tag stripping, `&nbsp;` replacement,
  `strings.TrimSpace`) is embedded over `List Char`.  Recursions that are
  not structural (the regex scan jumps past the next `>`) are written with
  an explicit fuel argument so that every definition kernel-evaluates;
  fuel-irrelevance lemmas recover the natural unfolding equations.
-/
import Mathlib

namespace Adncli

/-! ### Go `unicode.IsSpace`, `strings.TrimSpace` -/

/-- Go's `unicode.IsSpace` (the White_Space property):
`\t \n \v \f \r`, space, NEL, NBSP and the Unicode space separators. -/
def goIsSpace (c : Char) : Bool :=
  let n := c.toNat
  (9 ≤ n && n ≤ 13) || n == 32 || n == 0x85 || n == 0xA0 ||
  n == 0x1680 || (0x2000 ≤ n && n ≤ 0x200A) || n == 0x2028 || n == 0x2029 ||
  n == 0x202F || n == 0x205F || n == 0x3000

/-- Leading-whitespace removal, the first half of `strings.TrimSpace`. -/
def trimLeft (l : List Char) : List Char := l.dropWhile goIsSpace

/-- Trailing-whitespace removal, the second half of `strings.TrimSpace`. -/
def trimRight (l : List Char) : List Char := (l.reverse.dropWhile goIsSpace).reverse

/-- Go's `strings.TrimSpace` on a list of characters. -/
def trimSpace (l : List Char) : List Char := trimRight (trimLeft l)

/-! ### The tag regex `<[^>]*>` and `ReplaceAllString(text, "")`

For this pattern a match starting at a `<` runs to the first following `>`
(the class `[^>]*` cannot cross a `>`), and there is no match at all after a
`<` with no later `>`.  `ReplaceAllString` removes the leftmost matches,
scanning left to right. -/

/-- The suffix just after the first `>` of a list, if any. -/
def findGt : List Char → Option (List Char)
  | [] => none
  | c :: rest => if c = '>' then some rest else findGt rest

theorem findGt_length : ∀ l l', findGt l = some l' → l'.length < l.length := by
  intro l
  induction l with
  | nil => intro l' h; simp [findGt] at h
  | cons c rest ih =>
    intro l' h
    simp only [findGt] at h
    split at h
    · cases h; simp
    · exact Nat.lt_trans (ih l' h) (Nat.lt_succ_self _)

/-- Fueled form of the tag-stripping scan of
`htmlTagRegex.ReplaceAllString(text, "")`. -/
def stripTagsF : Nat → List Char → List Char
  | 0, l => l
  | _ + 1, [] => []
  | f + 1, c :: rest =>
    if c = '<' then
      match findGt rest with
      | some rest' => stripTagsF f rest'
      | none => c :: rest
    else c :: stripTagsF f rest

/-- `htmlTagRegex.ReplaceAllString(text, "")` with the compiled pattern
`<[^>]*>`: every leftmost substring from a `<` through the next `>` is
removed. -/
def stripTags (l : List Char) : List Char := stripTagsF l.length l

theorem stripTagsF_irrel : ∀ f g l, l.length ≤ f → l.length ≤ g →
    stripTagsF f l = stripTagsF g l := by
  intro f
  induction f with
  | zero =>
    intro g l hf _
    have : l = [] := List.eq_nil_of_length_eq_zero (Nat.le_zero.mp hf)
    subst this
    cases g <;> rfl
  | succ f ih =>
    intro g l hf hg
    cases l with
    | nil => cases g <;> rfl
    | cons c rest =>
      cases g with
      | zero => exact absurd hg (by simp)
      | succ g =>
        simp only [stripTagsF]
        have hrest : rest.length ≤ f := by simpa using hf
        have hrestg : rest.length ≤ g := by simpa using hg
        split
        · cases hfind : findGt rest with
          | none => rfl
          | some rest' =>
            have hlt := findGt_length rest rest' hfind
            exact ih g rest' (Nat.le_trans (Nat.le_of_lt hlt) hrest)
              (Nat.le_trans (Nat.le_of_lt hlt) hrestg)
        · rw [ih g rest hrest hrestg]

theorem stripTagsF_eq (f : Nat) (l : List Char) (h : l.length ≤ f) :
    stripTagsF f l = stripTags l :=
  stripTagsF_irrel f l.length l h (Nat.le_refl _)

theorem stripTags_nil : stripTags [] = [] := rfl

theorem stripTags_cons_ne (c : Char) (rest : List Char) (h : c ≠ '<') :
    stripTags (c :: rest) = c :: stripTags rest := by
  show stripTagsF (rest.length + 1) (c :: rest) = _
  simp only [stripTagsF, if_neg h]
  rw [stripTagsF_eq rest.length rest (Nat.le_refl _)]

theorem stripTags_cons_lt_some (rest rest' : List Char)
    (h : findGt rest = some rest') :
    stripTags ('<' :: rest) = stripTags rest' := by
  show stripTagsF (rest.length + 1) ('<' :: rest) = _
  simp only [stripTagsF, if_pos rfl, h]
  exact stripTagsF_eq rest.length rest'
    (Nat.le_of_lt (findGt_length rest rest' h))

theorem stripTags_cons_lt_none (rest : List Char) (h : findGt rest = none) :
    stripTags ('<' :: rest) = '<' :: rest := by
  show stripTagsF (rest.length + 1) ('<' :: rest) = _
  simp only [stripTagsF, if_pos rfl, h]
  simp

/-! ### `strings.ReplaceAll(clean, "&nbsp;", " ")` -/

/-- The entity text replaced by variant A's `strings.ReplaceAll`. -/
def nbsp : List Char := ['&', 'n', 'b', 's', 'p', ';']

/-- Fueled form of the `&nbsp;`-to-space replacement scan. -/
def replaceNbspF : Nat → List Char → List Char
  | 0, l => l
  | _ + 1, [] => []
  | f + 1, c :: rest =>
    if (c :: rest).take 6 = nbsp then ' ' :: replaceNbspF f (rest.drop 5)
    else c :: replaceNbspF f rest

/-- `strings.ReplaceAll(clean, "&nbsp;", " ")`: every (leftmost,
non-overlapping) occurrence of `&nbsp;` becomes one ASCII space. -/
def replaceNbsp (l : List Char) : List Char := replaceNbspF l.length l

theorem replaceNbspF_irrel : ∀ f g l, l.length ≤ f → l.length ≤ g →
    replaceNbspF f l = replaceNbspF g l := by
  intro f
  induction f with
  | zero =>
    intro g l hf _
    have : l = [] := List.eq_nil_of_length_eq_zero (Nat.le_zero.mp hf)
    subst this
    cases g <;> rfl
  | succ f ih =>
    intro g l hf hg
    cases l with
    | nil => cases g <;> rfl
    | cons c rest =>
      cases g with
      | zero => exact absurd hg (by simp)
      | succ g =>
        simp only [replaceNbspF]
        have hrest : rest.length ≤ f := by simpa using hf
        have hrestg : rest.length ≤ g := by simpa using hg
        have hdrop : (rest.drop 5).length ≤ rest.length := by
          simp [Nat.sub_le]
        split
        · rw [ih g (rest.drop 5) (Nat.le_trans hdrop hrest)
            (Nat.le_trans hdrop hrestg)]
        · rw [ih g rest hrest hrestg]

theorem replaceNbspF_eq (f : Nat) (l : List Char) (h : l.length ≤ f) :
    replaceNbspF f l = replaceNbsp l :=
  replaceNbspF_irrel f l.length l h (Nat.le_refl _)

theorem replaceNbsp_nil : replaceNbsp [] = [] := rfl

theorem replaceNbsp_cons_hit (c : Char) (rest : List Char)
    (h : (c :: rest).take 6 = nbsp) :
    replaceNbsp (c :: rest) = ' ' :: replaceNbsp (rest.drop 5) := by
  show replaceNbspF (rest.length + 1) (c :: rest) = _
  simp only [replaceNbspF, if_pos h]
  exact congrArg _ (replaceNbspF_eq rest.length (rest.drop 5) (by simp [Nat.sub_le]))

theorem replaceNbsp_cons_miss (c : Char) (rest : List Char)
    (h : ¬ (c :: rest).take 6 = nbsp) :
    replaceNbsp (c :: rest) = c :: replaceNbsp rest := by
  show replaceNbspF (rest.length + 1) (c :: rest) = _
  simp only [replaceNbspF, if_neg h]
  exact congrArg _ (replaceNbspF_eq rest.length rest (Nat.le_refl _))

/-! ### Variant A's sanitizer `removeTags` -/

/-- Variant A's `removeTags`: strip the tag regex, replace `&nbsp;` by a
space, then `strings.TrimSpace`. -/
def removeTags (l : List Char) : List Char := trimSpace (replaceNbsp (stripTags l))

/-- `removeTags` lifted to `String`, the type it has in the Go source. -/
def removeTagsStr (s : String) : String := ⟨removeTags s.data⟩

/-- C2: sanitize on the documented example input yields exactly
`"Hello world Test"`: tags removed, `&nbsp;` becomes an ASCII space,
result trimmed.  (This is also the repository's own `TestRemoveTags`.) -/
theorem removeTags_example :
    removeTagsStr "<p>Hello <b>world</b></p>&nbsp;Test" = "Hello world Test" := by
  decide

/-! ### The static category table -/

/-- Variant B's `FeedCategory` record. -/
structure FeedCategory where
  id : Int
  name : String
  url : String
deriving DecidableEq

/-- Variant B's `categories` slice, in menu order. -/
def categories : List FeedCategory :=
  [⟨1, "Prima Pagina", "https://www.adnkronos.com/RSS_PrimaPagina.xml"⟩,
   ⟨2, "Ultim'ora", "https://www.adnkronos.com/RSS_Ultimora.xml"⟩,
   ⟨3, "Politica", "https://www.adnkronos.com/RSS_Politica.xml"⟩,
   ⟨4, "Esteri", "https://www.adnkronos.com/RSS_Esteri.xml"⟩,
   ⟨5, "Cronaca", "https://www.adnkronos.com/RSS_Cronaca.xml"⟩,
   ⟨6, "Economia", "https://www.adnkronos.com/RSS_Economia.xml"⟩,
   ⟨7, "Finanza", "https://www.adnkronos.com/RSS_Finanza.xml"⟩,
   ⟨8, "Sport", "https://www.adnkronos.com/RSS_Sport.xml"⟩]

/-- Variant A's `categoryURLs` map, as its (unique-key) entry list. -/
def categoryURLs : List (Int × String) :=
  [(1, "https://www.adnkronos.com/RSS_PrimaPagina.xml"),
   (2, "https://www.adnkronos.com/RSS_Ultimora.xml"),
   (3, "https://www.adnkronos.com/RSS_Politica.xml"),
   (4, "https://www.adnkronos.com/RSS_Esteri.xml"),
   (5, "https://www.adnkronos.com/RSS_Cronaca.xml"),
   (6, "https://www.adnkronos.com/RSS_Economia.xml"),
   (7, "https://www.adnkronos.com/RSS_Finanza.xml"),
   (8, "https://www.adnkronos.com/RSS_Sport.xml")]

/-- Variant A's lookup `url, ok := r.categoryURLs[category]`. -/
def lookupURL (category : Int) : Option String :=
  (categoryURLs.find? (fun p => p.1 == category)).map Prod.snd

/-- Variant B's selection scan: first category whose `ID` equals the choice,
with the zero value `""` when none matches (`selectedURL == ""` is how the
loop detects an invalid category). -/
def findCategoryURL (choice : Int) : String :=
  match categories.find? (fun cat => cat.id == choice) with
  | some cat => cat.url
  | none => ""

/-- C7: categories 1 and 3 resolve to non-empty URLs, every id outside 1..8
is not found (in both the map variant and the slice-scan variant), and the
eight ids are pairwise distinct. -/
theorem categoryTable_ok :
    lookupURL 1 = some "https://www.adnkronos.com/RSS_PrimaPagina.xml" ∧
    lookupURL 3 = some "https://www.adnkronos.com/RSS_Politica.xml" ∧
    ("https://www.adnkronos.com/RSS_PrimaPagina.xml" : String) ≠ "" ∧
    ("https://www.adnkronos.com/RSS_Politica.xml" : String) ≠ "" ∧
    (categoryURLs.map Prod.fst).Nodup ∧
    (categories.map FeedCategory.id).Nodup ∧
    (∀ i : Int, i < 1 ∨ 8 < i → lookupURL i = none ∧ findCategoryURL i = "") := by
  refine ⟨by decide, by decide, by decide, by decide, by decide, by decide, ?_⟩
  intro i hi
  have hout : ∀ k : Int, k ∈ ([1, 2, 3, 4, 5, 6, 7, 8] : List Int) → ¬ k = i := by
    intro k hk
    fin_cases hk <;> omega
  constructor
  · have hnone : categoryURLs.find? (fun p => p.1 == i) = none := by
      rw [List.find?_eq_none]
      intro x hx
      fin_cases hx <;>
        simpa using hout _ (by simp)
    simp [lookupURL, hnone]
  · have hnone : categories.find? (fun cat => cat.id == i) = none := by
      rw [List.find?_eq_none]
      intro x hx
      fin_cases hx <;>
        simpa using hout _ (by simp)
    simp [findCategoryURL, hnone]

/-- Witness for C7 at the concrete out-of-table id 10. -/
theorem categoryTable_ok_witness :
    lookupURL 10 = none ∧ findCategoryURL 10 = "" :=
  categoryTable_ok.2.2.2.2.2.2 10 (by decide)

/-! ### The feed data model and the fetch pipeline -/

/-- One `<item>` entry. -/
structure Item where
  title : String
  link : String
  description : String
  pubDate : String
deriving DecidableEq

/-- The `<channel>` section. -/
structure Channel where
  title : String
  description : String
  link : String
  items : List Item
deriving DecidableEq

/-- The root `<rss>` element. -/
structure Rss where
  channel : Channel
deriving DecidableEq

/-- The error taxonomy of the fetch pipeline. -/
inductive FetchError
  | transportError
  | httpStatusError (code : Nat)
  | malformedDocumentError
deriving DecidableEq

/-- Outcome of the HTTP round trip `r.client.Do(req)`: either a transport
failure (network error or elapsed deadline, `err != nil`) or a response with
a status code and a body. -/
inductive HttpOutcome
  | failure
  | response (status : Nat) (body : List Char)

/-- Verdict of `xml.NewDecoder(resp.Body).Decode(&rss)`, kept abstract: the
decoder either yields a complete `Rss` value or reports an error. -/
inductive DecodeResult
  | ok (rss : Rss)
  | fail
deriving DecidableEq

/-- Variant A's `fetchRssFeed`: transport failure propagates, a status code
`>= 300` is rejected before the body is read, and a decode error propagates;
only a decoded document is returned. -/
def fetchRssFeed (decode : List Char → DecodeResult) (resp : HttpOutcome) :
    Except FetchError Rss :=
  match resp with
  | .failure => .error .transportError
  | .response status body =>
    if 300 ≤ status then .error (.httpStatusError status)
    else match decode body with
      | .fail => .error .malformedDocumentError
      | .ok rss => .ok rss

/-- Variant B's `fetchFeed`: as `fetchRssFeed` but with the stricter status
check `resp.StatusCode != http.StatusOK`. -/
def fetchFeed (decode : List Char → DecodeResult) (resp : HttpOutcome) :
    Except FetchError Rss :=
  match resp with
  | .failure => .error .transportError
  | .response status body =>
    if status ≠ 200 then .error (.httpStatusError status)
    else match decode body with
      | .fail => .error .malformedDocumentError
      | .ok rss => .ok rss

/-- C3: a failure status (`>= 300` in variant A, `!= 200` in variant B)
yields an `HTTPStatusError` carrying the code and never a `Feed`; the body
(and the decoder) are never consulted. -/
theorem fetch_status_error (decode : List Char → DecodeResult)
    (status : Nat) (body : List Char) :
    (300 ≤ status →
      fetchRssFeed decode (.response status body) =
        .error (.httpStatusError status)) ∧
    (status ≠ 200 →
      fetchFeed decode (.response status body) =
        .error (.httpStatusError status)) := by
  constructor
  · intro h
    simp [fetchRssFeed, h]
  · intro h
    simp [fetchFeed, h]

/-- Witness for C3 at a concrete 500 response. -/
theorem fetch_status_error_witness :
    fetchRssFeed (fun _ => DecodeResult.fail) (.response 500 []) =
      .error (.httpStatusError 500) ∧
    fetchFeed (fun _ => DecodeResult.fail) (.response 500 []) =
      .error (.httpStatusError 500) :=
  ⟨(fetch_status_error _ 500 []).1 (by decide),
   (fetch_status_error _ 500 []).2 (by decide)⟩

/-- C4: when the decoder rejects the body of a 200 response, both fetch
variants fail with `MalformedDocumentError` and never return a (partially
populated) `Feed`. -/
theorem fetch_malformed (decode : List Char → DecodeResult)
    (body : List Char) (h : decode body = .fail) :
    fetchRssFeed decode (.response 200 body) =
      .error .malformedDocumentError ∧
    fetchFeed decode (.response 200 body) =
      .error .malformedDocumentError := by
  constructor
  · simp [fetchRssFeed, h]
  · simp [fetchFeed, h]

/-- Modelled from the spec: the streaming XML decoder (`encoding/xml`, not
part of this repository) "must surface structural errors (e.g., truncated
input) rather than silently returning a partially populated result".  This
model decides only acceptance, by requiring every opened element to be
closed (nesting depth returns to zero); on acceptance it returns a
placeholder feed, since only rejection matters to the claims using it. -/
def xmlBalancedF : Nat → Nat → List Char → Bool
  | 0, _, _ => false
  | _ + 1, depth, [] => depth == 0
  | f + 1, depth, c :: rest =>
    if c = '<' then
      match rest with
      | '/' :: rest2 =>
        match findGt rest2 with
        | some rest' => depth != 0 && xmlBalancedF f (depth - 1) rest'
        | none => false
      | _ =>
        match findGt rest with
        | some rest' => xmlBalancedF f (depth + 1) rest'
        | none => false
    else xmlBalancedF f depth rest

/-- Modelled from the spec: acceptance of a whole document body by the
streaming decoder (see `xmlBalancedF`). -/
def specDecoder (body : List Char) : DecodeResult :=
  if xmlBalancedF (body.length + 1) 0 body then .ok ⟨⟨"", "", "", []⟩⟩
  else .fail

/-- Witness for C4 at the documented truncated body `"<rss><channel><title>"`. -/
theorem fetch_malformed_witness :
    fetchRssFeed specDecoder (.response 200 "<rss><channel><title>".data) =
      .error .malformedDocumentError ∧
    fetchFeed specDecoder (.response 200 "<rss><channel><title>".data) =
      .error .malformedDocumentError :=
  fetch_malformed specDecoder "<rss><channel><title>".data (by decide)

/-! ### The two selection parsers -/

/-- ASCII decimal digit, as both `strconv.Atoi` and `fmt`'s `%d` verb use. -/
def goIsDigit (c : Char) : Bool := 48 ≤ c.toNat && c.toNat ≤ 57

/-- Value of a digit run, most significant first. -/
def digitsVal (l : List Char) : Int :=
  l.foldl (fun acc c => acc * 10 + ((c.toNat : Int) - 48)) 0

/-- Leading optional sign of a number literal: `(negative, rest)`. -/
def splitSign (l : List Char) : Bool × List Char :=
  match l with
  | [] => (false, [])
  | c :: r =>
    if c = '-' then (true, r)
    else if c = '+' then (false, r)
    else (false, l)

/-- `fmt.Sscanf(input, "%d", &cat)` as variant A's `getCategoryInput` uses
it: skip leading whitespace, read an optional sign and a non-empty digit
run, and ignore anything after it (trailing garbage is not an error for
`Sscanf`).  `none` models `err != nil`. -/
def sscanfD (l : List Char) : Option Int :=
  let l1 := l.dropWhile goIsSpace
  let s := splitSign l1
  let ds := s.2.takeWhile goIsDigit
  if ds.isEmpty then none
  else some ((if s.1 then -1 else 1) * digitsVal ds)

/-- `strconv.Atoi(input)` as variant B's `Run` uses it: the entire string
must be an optional sign followed by one or more digits (the int64 range
check, irrelevant at menu scale, is not modelled).  `none` models
`err != nil`. -/
def atoi (l : List Char) : Option Int :=
  let s := splitSign l
  if s.2.isEmpty then none
  else if s.2.all goIsDigit then some ((if s.1 then -1 else 1) * digitsVal s.2)
  else none

theorem goIsDigit_not_space (c : Char) (h : goIsDigit c = true) :
    goIsSpace c = false := by
  simp only [goIsDigit, Bool.and_eq_true, decide_eq_true_eq] at h
  simp only [goIsSpace, Bool.or_eq_false_iff, Bool.and_eq_false_iff,
    beq_eq_false_iff_ne, ne_eq, decide_eq_false_iff_not, not_le]
  omega

theorem goIsDigit_ne_dash (c : Char) (h : goIsDigit c = true) :
    c ≠ '-' ∧ c ≠ '+' := by
  simp only [goIsDigit, Bool.and_eq_true, decide_eq_true_eq] at h
  constructor <;> rintro rfl <;> simp at h

theorem takeWhile_append_of_all {p : Char → Bool} :
    ∀ (ds suffix : List Char), ds.all p = true →
      (∀ c, suffix.head? = some c → p c = false) →
      (ds ++ suffix).takeWhile p = ds := by
  intro ds
  induction ds with
  | nil =>
    intro suffix _ hsuf
    cases suffix with
    | nil => rfl
    | cons c r =>
      simp only [List.nil_append, List.takeWhile_cons]
      rw [hsuf c rfl]
      simp
  | cons d ds ih =>
    intro suffix hall hsuf
    simp only [List.all_cons, Bool.and_eq_true] at hall
    simp only [List.cons_append, List.takeWhile_cons, hall.1]
    rw [ih suffix hall.2 hsuf]
    simp

/-- C10: the two variants' selection parsers disagree.  On any line made of
a digit run followed by trailing garbage whose first character is not a
digit, `Sscanf` succeeds with the leading integer while `strconv.Atoi`
rejects the line. -/
theorem parsers_differ (ds suffix : List Char) (hne : ds ≠ [])
    (hds : ds.all goIsDigit = true)
    (hsuf : ∀ c, suffix.head? = some c → goIsDigit c = false)
    (hsufne : suffix ≠ []) :
    sscanfD (ds ++ suffix) = some (digitsVal ds) ∧ atoi (ds ++ suffix) = none := by
  obtain ⟨d, ds', rfl⟩ : ∃ d ds', ds = d :: ds' := by
    cases ds with
    | nil => exact absurd rfl hne
    | cons d ds' => exact ⟨d, ds', rfl⟩
  simp only [List.all_cons, Bool.and_eq_true] at hds
  have hdrop : ((d :: ds') ++ suffix).dropWhile goIsSpace = (d :: ds') ++ suffix := by
    simp only [List.cons_append, List.dropWhile_cons,
      goIsDigit_not_space d hds.1, Bool.false_eq_true, if_false]
  have hsign : splitSign ((d :: ds') ++ suffix) = (false, (d :: ds') ++ suffix) := by
    obtain ⟨h1, h2⟩ := goIsDigit_ne_dash d hds.1
    simp [splitSign, h1, h2]
  have htake : ((d :: ds') ++ suffix).takeWhile goIsDigit = d :: ds' :=
    takeWhile_append_of_all (d :: ds') suffix (by simp [hds.1, hds.2]) hsuf
  constructor
  · simp only [sscanfD, hdrop, hsign, htake]
    simp
  · obtain ⟨c, r, rfl⟩ : ∃ c r, suffix = c :: r := by
      cases suffix with
      | nil => exact absurd rfl hsufne
      | cons c r => exact ⟨c, r, rfl⟩
    have hc : goIsDigit c = false := hsuf c rfl
    have hall : ((d :: ds') ++ c :: r).all goIsDigit = false := by
      simp only [List.all_append, List.all_cons]
      simp [hc]
    simp only [atoi, hsign, hall]
    simp

/-- Witness for C10 at the documented input `"5abc"`. -/
theorem parsers_differ_witness :
    sscanfD "5abc".data = some 5 ∧ atoi "5abc".data = none := by
  have h := parsers_differ ['5'] ['a', 'b', 'c'] (by decide) (by decide)
    (by intro c hc; cases hc; decide) (by decide)
  simpa using h

/-! ### The session step: one-shot variant A vs. loop variant B -/

/-- What one pass of the program does to the session and the process. -/
inductive StepOutcome
  | promptAgain          -- error reported, control returns to the menu
  | exitSuccess          -- normal termination
  | exitFailure          -- the process terminates with a failure indication
  | rendered (rss : Rss) -- the feed is displayed
deriving DecidableEq

/-- Variant A: `Run` (Sscanf variant) composed with its caller `main`.
`getCategoryInput` trims the line and scans it; `Run` propagates every
error (scan failure, unknown category, fetch failure) to `main`, which
prints it and calls `os.Exit(1)`; the sentinel `0` calls `os.Exit(0)`. -/
def runA (decode : List Char → DecodeResult) (inputLine : List Char)
    (resp : HttpOutcome) : StepOutcome :=
  match sscanfD (trimSpace inputLine) with
  | none => .exitFailure
  | some category =>
    if category = 0 then .exitSuccess
    else match lookupURL category with
      | none => .exitFailure
      | some _ =>
        match fetchRssFeed decode resp with
        | .error _ => .exitFailure
        | .ok rss => .rendered rss

/-- Variant B: one iteration of `Run`'s interactive loop (Atoi variant).
Scan failure, an unknown category (`selectedURL == ""`) and every fetch
error print a message and `continue`; `0` returns normally. -/
def runStepB (decode : List Char → DecodeResult) (inputLine : List Char)
    (resp : HttpOutcome) : StepOutcome :=
  match atoi (trimSpace inputLine) with
  | none => .promptAgain
  | some choice =>
    if choice = 0 then .exitSuccess
    else if findCategoryURL choice = "" then .promptAgain
    else match fetchFeed decode resp with
      | .error _ => .promptAgain
      | .ok rss => .rendered rss

/-- C1 counterexample: in the Sscanf variant the errors are not recoverable.
The concrete non-numeric line `"abc"` — and likewise the out-of-table id
`"10"` and a fetch failure on the valid id `"1"` — make the process
terminate with a failure indication instead of returning to the prompt. -/
theorem runA_errors_fatal :
    runA (fun _ => DecodeResult.fail) "abc".data (.response 200 []) =
      .exitFailure ∧
    runA (fun _ => DecodeResult.fail) "10".data (.response 200 []) =
      .exitFailure ∧
    runA (fun _ => DecodeResult.fail) "1".data (.response 500 []) =
      .exitFailure := by
  decide

/-- C1 (amended to the loop variant): in variant B's loop every pipeline
error is recoverable — a non-numeric line, an unknown category id and every
fetch error yield `promptAgain` — and no input or response whatsoever makes
a loop iteration terminate the process with a failure indication. -/
theorem runStepB_recoverable (decode : List Char → DecodeResult)
    (inputLine : List Char) (resp : HttpOutcome) :
    (atoi (trimSpace inputLine) = none →
      runStepB decode inputLine resp = .promptAgain) ∧
    (∀ choice, atoi (trimSpace inputLine) = some choice → choice ≠ 0 →
      findCategoryURL choice = "" →
      runStepB decode inputLine resp = .promptAgain) ∧
    (∀ choice e, atoi (trimSpace inputLine) = some choice → choice ≠ 0 →
      fetchFeed decode resp = .error e →
      runStepB decode inputLine resp = .promptAgain) ∧
    runStepB decode inputLine resp ≠ .exitFailure := by
  refine ⟨?_, ?_, ?_, ?_⟩
  · intro h
    simp [runStepB, h]
  · intro choice h h0 hurl
    simp [runStepB, h, h0, hurl]
  · intro choice e h h0 hfetch
    by_cases hurl : findCategoryURL choice = ""
    · simp [runStepB, h, h0, hurl]
    · simp [runStepB, h, h0, hurl, hfetch]
  · unfold runStepB
    cases atoi (trimSpace inputLine) with
    | none => simp
    | some choice =>
      simp only []
      split
      · simp
      · split
        · simp
        · cases fetchFeed decode resp <;> simp

/-- Witness for the amended C1 at a concrete non-numeric line. -/
theorem runStepB_recoverable_witness :
    runStepB (fun _ => DecodeResult.fail) "abc".data (.response 500 []) =
      .promptAgain :=
  (runStepB_recoverable (fun _ => DecodeResult.fail) "abc".data
    (.response 500 [])).1 (by decide)

/-! ### Display rendering and document order of items -/

/-- `strings.TrimSpace` lifted to `String`. -/
def trimSpaceStr (s : String) : String := ⟨trimSpace s.data⟩

/-- Variant A's per-item output block: title, link, sanitized description,
publish date, separator (`strings.Repeat("-", 80)`). -/
def renderItemA (item : Item) : List String :=
  ["Title: " ++ item.title,
   "Link: " ++ item.link,
   "Description: " ++ removeTagsStr item.description,
   "Published: " ++ item.pubDate,
   String.mk (List.replicate 80 '-')]

/-- Variant A's `displayFeed` item loop (`for _, item := range Items`). -/
def displayItemsA : List Item → List String
  | [] => []
  | item :: rest => renderItemA item ++ displayItemsA rest

/-- Variant A's `displayFeed`. -/
def displayFeedA (rss : Rss) : List String :=
  ["Title: " ++ rss.channel.title,
   "Link: " ++ rss.channel.link,
   "Description: " ++ rss.channel.description] ++
  displayItemsA rss.channel.items

/-- Variant B's per-item output block at loop index `i` (printed label is
`i+1`); the publish-date and description lines are omitted when empty.  The
sanitizer `san` abstracts `cleanText`, whose `html.UnescapeString` step is
library code. -/
def renderItemB (san : String → String) (i : Nat) (item : Item) : List String :=
  ("[" ++ toString (i + 1) ++ "] " ++ trimSpaceStr item.title) ::
  ((if item.pubDate ≠ "" then ["    Pubblicato: " ++ item.pubDate] else []) ++
   (if san item.description ≠ "" then ["    " ++ san item.description] else []) ++
   [String.mk (List.replicate 60 '-')])

/-- Variant B's `displayFeed` item loop (`for i, item := range Items`). -/
def displayItemsB (san : String → String) : Nat → List Item → List String
  | _, [] => []
  | i, item :: rest => renderItemB san i item ++ displayItemsB san (i + 1) rest

/-- First-occurrence split: `some (pre, post)` when the list is
`pre ++ pat ++ post` at the leftmost occurrence of `pat`. -/
def splitOnce (pat : List Char) : List Char → Option (List Char × List Char)
  | [] => none
  | c :: rest =>
    if (c :: rest).take pat.length = pat then
      some ([], (c :: rest).drop pat.length)
    else
      match splitOnce pat rest with
      | some (pre, post) => some (c :: pre, post)
      | none => none

def openItem : List Char := ['<', 'i', 't', 'e', 'm', '>']

def closeItem : List Char := ['<', '/', 'i', 't', 'e', 'm', '>']

theorem splitOnce_post_length (pat : List Char) (hpat : pat ≠ []) :
    ∀ l pre post, splitOnce pat l = some (pre, post) → post.length < l.length := by
  intro l
  induction l with
  | nil => intro pre post h; simp [splitOnce] at h
  | cons c rest ih =>
    intro pre post h
    simp only [splitOnce] at h
    split at h
    · rename_i htake
      cases h
      have hlen : pat.length ≤ (c :: rest).length := by
        have := congrArg List.length htake
        simp only [List.length_take] at this
        omega
      have hpos : 0 < pat.length := List.length_pos.mpr hpat
      simp only [List.length_drop]
      omega
    · cases hrec : splitOnce pat rest with
      | none => rw [hrec] at h; cases h
      | some pp =>
        rw [hrec] at h
        cases h
        exact Nat.lt_trans (ih pp.1 pp.2 (by rw [hrec])) (Nat.lt_succ_self _)

/-- Modelled from the spec: the decoder populates `items` with "one `Item`
per `<item>` child, in document order".  This scan returns the `<item>`
bodies in the order the document presents them. -/
def extractItemsF : Nat → List Char → List (List Char)
  | 0, _ => []
  | f + 1, l =>
    match splitOnce openItem l with
    | none => []
    | some (_, rest) =>
      match splitOnce closeItem rest with
      | none => []
      | some (body, rest') => body :: extractItemsF f rest'

/-- Document-order `<item>` bodies of a document (see `extractItemsF`). -/
def extractItems (l : List Char) : List (List Char) := extractItemsF l.length l

/-- A document consisting of the given item bodies in the given order. -/
def mkItemsDoc (blocks : List (List Char)) : List Char :=
  blocks.flatMap (fun b => openItem ++ b ++ closeItem)

theorem splitOnce_at_head (pat post : List Char) (hpat : pat ≠ []) :
    splitOnce pat (pat ++ post) = some ([], post) := by
  obtain ⟨p, pat', rfl⟩ : ∃ p pat', pat = p :: pat' := by
    cases pat with
    | nil => exact absurd rfl hpat
    | cons p pat' => exact ⟨p, pat', rfl⟩
  show splitOnce (p :: pat') (p :: (pat' ++ post)) = some ([], post)
  simp only [splitOnce]
  rw [show p :: (pat' ++ post) = (p :: pat') ++ post from rfl]
  rw [List.take_left, List.drop_left]
  simp

theorem splitOnce_skip (pat post : List Char) (p : Char) (pat' : List Char)
    (hpat : pat = p :: pat') :
    ∀ b : List Char, (∀ c ∈ b, c ≠ p) →
      splitOnce pat (b ++ pat ++ post) = some (b, post) := by
  intro b
  induction b with
  | nil =>
    intro _
    simpa using splitOnce_at_head pat post (by simp [hpat])
  | cons c b' ih =>
    intro hb
    have hcp : c ≠ p := hb c (by simp)
    have hbody : ∀ c' ∈ b', c' ≠ p := fun c' hc' => hb c' (by simp [hc'])
    show splitOnce pat (c :: (b' ++ pat ++ post)) = some (c :: b', post)
    simp only [splitOnce]
    have hno : ¬ (c :: (b' ++ pat ++ post)).take pat.length = pat := by
      intro htake
      subst hpat
      have : c = p := by
        have h1 : (p :: pat').length = (p :: pat').length := rfl
        rw [List.take_cons (by simp)] at htake
        exact (List.cons.injEq _ _ _ _ ▸ htake).1
      exact hcp this
    rw [if_neg hno, ih hbody]

theorem extractItemsF_mkItemsDoc :
    ∀ (blocks : List (List Char)) (f : Nat),
      (mkItemsDoc blocks).length ≤ f →
      (∀ b ∈ blocks, ∀ c ∈ b, c ≠ '<') →
      extractItemsF f (mkItemsDoc blocks) = blocks := by
  intro blocks
  induction blocks with
  | nil =>
    intro f _ _
    cases f <;> simp [mkItemsDoc, extractItemsF, splitOnce]
  | cons b blocks' ih =>
    intro f hf hb
    have hdoc : mkItemsDoc (b :: blocks') =
        openItem ++ (b ++ (closeItem ++ mkItemsDoc blocks')) := by
      simp [mkItemsDoc, List.flatMap_cons, List.append_assoc]
    have hlen : 13 + b.length + (mkItemsDoc blocks').length ≤ f := by
      have := congrArg List.length hdoc
      simp only [List.length_append] at this
      simp only [hdoc, List.length_append] at hf
      simp only [openItem, closeItem, List.length_cons, List.length_nil] at hf ⊢
      omega
    obtain ⟨f', rfl⟩ : ∃ f', f = f' + 1 := by
      cases f with
      | zero => omega
      | succ f' => exact ⟨f', rfl⟩
    rw [hdoc]
    simp only [extractItemsF]
    rw [splitOnce_at_head openItem _ (by simp [openItem])]
    have hclose : splitOnce closeItem (b ++ (closeItem ++ mkItemsDoc blocks')) =
        some (b, mkItemsDoc blocks') := by
      have := splitOnce_skip closeItem (mkItemsDoc blocks') '<'
        ['/', 'i', 't', 'e', 'm', '>'] rfl b (hb b (by simp))
      simpa [List.append_assoc] using this
    simp only [hclose]
    rw [ih f' (by omega) (fun b' hb' => hb b' (by simp [hb']))]

/-- C8: items are kept in document order end to end.  (1) The modelled
decoder returns the `<item>` bodies of a document in document order: a
document assembled from any list of bodies extracts back to exactly that
list.  (2) Variant A's display loop renders exactly one block per item, in
list order, with no re-ordering, filtering or deduplication.  (3) So does
variant B's indexed loop, for any sanitizer. -/
theorem feed_order_preserved :
    (∀ blocks : List (List Char), (∀ b ∈ blocks, ∀ c ∈ b, c ≠ '<') →
      extractItems (mkItemsDoc blocks) = blocks) ∧
    (∀ items : List Item, displayItemsA items = items.flatMap renderItemA) ∧
    (∀ (san : String → String) (i : Nat) (items : List Item),
      displayItemsB san i items =
        (items.enumFrom i).flatMap (fun p => renderItemB san p.1 p.2)) := by
  refine ⟨?_, ?_, ?_⟩
  · intro blocks hb
    exact extractItemsF_mkItemsDoc blocks (mkItemsDoc blocks).length
      (Nat.le_refl _) hb
  · intro items
    induction items with
    | nil => rfl
    | cons item rest ih => simp [displayItemsA, ih]
  · intro san i items
    induction items generalizing i with
    | nil => rfl
    | cons item rest ih => simp [displayItemsB, List.enumFrom, ih]

/-- Witness for C8 at two concrete item bodies. -/
theorem feed_order_preserved_witness :
    extractItems (mkItemsDoc ["Item 1".data, "Item 2".data]) =
      ["Item 1".data, "Item 2".data] :=
  feed_order_preserved.1 ["Item 1".data, "Item 2".data] (by decide)

/-! ### Structural facts about the sanitizer -/

/-- Whether a `>` occurs anywhere in the list. -/
def hasGt : List Char → Bool
  | [] => false
  | c :: rest => c == '>' || hasGt rest

/-- No prefix of the list matches the tag pattern: every `<` has no `>`
anywhere after it, so `<[^>]*>` has no match. -/
def noTag : List Char → Bool
  | [] => true
  | c :: rest => (if c = '<' then !(hasGt rest) else true) && noTag rest

theorem findGt_none_iff (l : List Char) : findGt l = none ↔ hasGt l = false := by
  induction l with
  | nil => simp [findGt, hasGt]
  | cons c rest ih =>
    simp only [findGt, hasGt]
    by_cases h : c = '>'
    · simp [h]
    · simp [h, ih]

theorem noTag_of_hasGt_false (l : List Char) (h : hasGt l = false) :
    noTag l = true := by
  induction l with
  | nil => rfl
  | cons c rest ih =>
    simp only [hasGt, Bool.or_eq_false_iff] at h
    simp only [noTag, Bool.and_eq_true]
    refine ⟨?_, ih h.2⟩
    split
    · simp [h.2]
    · rfl

theorem hasGt_append (l1 l2 : List Char) :
    hasGt (l1 ++ l2) = (hasGt l1 || hasGt l2) := by
  induction l1 with
  | nil => simp [hasGt]
  | cons c rest ih => simp [hasGt, ih, Bool.or_assoc]

theorem noTag_append_right (l1 l2 : List Char) (h : noTag (l1 ++ l2) = true) :
    noTag l2 = true := by
  induction l1 with
  | nil => exact h
  | cons c rest ih =>
    simp only [List.cons_append, noTag, Bool.and_eq_true] at h
    exact ih h.2

theorem noTag_append_left (l1 l2 : List Char) (h : noTag (l1 ++ l2) = true) :
    noTag l1 = true := by
  induction l1 with
  | nil => rfl
  | cons c rest ih =>
    simp only [List.cons_append, noTag, Bool.and_eq_true] at h
    simp only [noTag, Bool.and_eq_true]
    refine ⟨?_, ih h.2⟩
    have h1 := h.1
    split at h1 <;> rename_i hc
    · rw [if_pos hc]
      simp only [List.append_eq] at h1
      rw [hasGt_append] at h1
      simp only [Bool.not_eq_true', Bool.or_eq_false_iff] at h1
      simp [h1.1]
    · rw [if_neg hc]

/-- `stripTags` leaves a string with no remaining tag match. -/
theorem noTag_stripTagsF :
    ∀ f l, l.length ≤ f → noTag (stripTagsF f l) = true := by
  intro f
  induction f with
  | zero =>
    intro l hf
    have : l = [] := List.eq_nil_of_length_eq_zero (Nat.le_zero.mp hf)
    subst this; rfl
  | succ f ih =>
    intro l hf
    cases l with
    | nil => rfl
    | cons c rest =>
      have hrest : rest.length ≤ f := by simpa using hf
      simp only [stripTagsF]
      by_cases hc : c = '<'
      · rw [if_pos hc]
        cases hfind : findGt rest with
        | some rest' =>
          exact ih rest' (Nat.le_trans (Nat.le_of_lt (findGt_length rest rest' hfind)) hrest)
        | none =>
          have hgt : hasGt rest = false := (findGt_none_iff rest).mp hfind
          simp only [noTag, Bool.and_eq_true]
          exact ⟨by rw [if_pos hc]; simp [hgt], noTag_of_hasGt_false rest hgt⟩
      · rw [if_neg hc]
        simp only [noTag, Bool.and_eq_true]
        exact ⟨by rw [if_neg hc], ih rest hrest⟩

theorem noTag_stripTags (l : List Char) : noTag (stripTags l) = true :=
  noTag_stripTagsF l.length l (Nat.le_refl _)

/-- A string with no tag match is a fixed point of `stripTags`. -/
theorem stripTags_of_noTag (l : List Char) (h : noTag l = true) :
    stripTags l = l := by
  induction l with
  | nil => rfl
  | cons c rest ih =>
    simp only [noTag, Bool.and_eq_true] at h
    by_cases hc : c = '<'
    · subst hc
      have h1 := h.1
      rw [if_pos rfl] at h1
      simp only [Bool.not_eq_true'] at h1
      exact stripTags_cons_lt_none rest ((findGt_none_iff rest).mpr h1)
    · rw [stripTags_cons_ne c rest hc, ih h.2]

/-- Characters of `replaceNbsp`'s output come from the input or are the
inserted space. -/
theorem mem_replaceNbspF :
    ∀ f l c, l.length ≤ f → c ∈ replaceNbspF f l → c ∈ l ∨ c = ' ' := by
  intro f
  induction f with
  | zero =>
    intro l c hf hmem
    have : l = [] := List.eq_nil_of_length_eq_zero (Nat.le_zero.mp hf)
    subst this; simp [replaceNbspF] at hmem
  | succ f ih =>
    intro l c hf hmem
    cases l with
    | nil => simp [replaceNbspF] at hmem
    | cons d rest =>
      have hrest : rest.length ≤ f := by simpa using hf
      simp only [replaceNbspF] at hmem
      split at hmem
      · rcases List.mem_cons.mp hmem with hc | hc
        · exact Or.inr hc
        · rcases ih (rest.drop 5) c
            (Nat.le_trans (by simp [Nat.sub_le]) hrest) hc with h | h
          · exact Or.inl (List.mem_cons_of_mem d (List.mem_of_mem_drop h))
          · exact Or.inr h
      · rcases List.mem_cons.mp hmem with hc | hc
        · exact Or.inl (by simp [hc])
        · rcases ih rest c hrest hc with h | h
          · exact Or.inl (List.mem_cons_of_mem d h)
          · exact Or.inr h

theorem mem_replaceNbsp (l : List Char) (c : Char) (h : c ∈ replaceNbsp l) :
    c ∈ l ∨ c = ' ' :=
  mem_replaceNbspF l.length l c (Nat.le_refl _) h

theorem hasGt_eq_false_iff (l : List Char) : hasGt l = false ↔ '>' ∉ l := by
  induction l with
  | nil => simp [hasGt]
  | cons c rest ih =>
    simp only [hasGt, Bool.or_eq_false_iff, List.mem_cons, ih, beq_eq_false_iff_ne,
      ne_eq]
    constructor
    · rintro ⟨h1, h2⟩ (h | h)
      · exact h1 h.symm
      · exact h2 h
    · intro h
      exact ⟨fun hc => h (Or.inl hc.symm), fun hc => h (Or.inr hc)⟩

theorem hasGt_replaceNbsp (l : List Char) (h : hasGt l = false) :
    hasGt (replaceNbsp l) = false := by
  rw [hasGt_eq_false_iff] at h ⊢
  intro hmem
  rcases mem_replaceNbsp l '>' hmem with h' | h'
  · exact h h'
  · exact absurd h' (by decide)

/-- `replaceNbsp` preserves the absence of tag matches. -/
theorem noTag_replaceNbspF :
    ∀ f l, l.length ≤ f → noTag l = true → noTag (replaceNbspF f l) = true := by
  intro f
  induction f with
  | zero =>
    intro l hf _
    have : l = [] := List.eq_nil_of_length_eq_zero (Nat.le_zero.mp hf)
    subst this; rfl
  | succ f ih =>
    intro l hf h
    cases l with
    | nil => rfl
    | cons c rest =>
      have hrest : rest.length ≤ f := by simpa using hf
      simp only [noTag, Bool.and_eq_true] at h
      simp only [replaceNbspF]
      split
      · simp only [noTag, Bool.and_eq_true]
        refine ⟨by rw [if_neg (by decide)], ?_⟩
        refine ih (rest.drop 5) (Nat.le_trans (by simp [Nat.sub_le]) hrest) ?_
        have : rest = rest.take 5 ++ rest.drop 5 := (List.take_append_drop 5 rest).symm
        exact noTag_append_right (rest.take 5) (rest.drop 5) (by rw [← this]; exact h.2)
      · simp only [noTag, Bool.and_eq_true]
        refine ⟨?_, ih rest hrest h.2⟩
        have h1 := h.1
        by_cases hc : c = '<'
        · rw [if_pos hc] at h1 ⊢
          simp only [Bool.not_eq_true'] at h1 ⊢
          rw [replaceNbspF_eq f rest hrest]
          exact hasGt_replaceNbsp rest h1
        · rw [if_neg hc]

theorem noTag_replaceNbsp (l : List Char) (h : noTag l = true) :
    noTag (replaceNbsp l) = true :=
  noTag_replaceNbspF l.length l (Nat.le_refl _) h

/-- `dropWhile` output is a suffix of the input. -/
theorem dropWhile_suffix_decomp (p : Char → Bool) (l : List Char) :
    ∃ l1, l = l1 ++ l.dropWhile p := by
  induction l with
  | nil => exact ⟨[], rfl⟩
  | cons c rest ih =>
    by_cases hc : p c = true
    · obtain ⟨l1, hl1⟩ := ih
      refine ⟨c :: l1, ?_⟩
      simp only [List.dropWhile_cons, hc, if_true]
      rw [List.cons_append, ← hl1]
    · refine ⟨[], ?_⟩
      simp [List.dropWhile_cons, hc]

/-- `trimRight` output is a prefix of the input. -/
theorem trimRight_decomp (l : List Char) :
    ∃ l2, l = trimRight l ++ l2 := by
  obtain ⟨l1, hl1⟩ := dropWhile_suffix_decomp goIsSpace l.reverse
  refine ⟨l1.reverse, ?_⟩
  have := congrArg List.reverse hl1
  simpa [trimRight] using this

theorem noTag_trimSpace (l : List Char) (h : noTag l = true) :
    noTag (trimSpace l) = true := by
  have h1 : noTag (trimLeft l) = true := by
    obtain ⟨l1, hl1⟩ := dropWhile_suffix_decomp goIsSpace l
    exact noTag_append_right l1 (trimLeft l) (by rw [show l1 ++ trimLeft l = l from hl1.symm]; exact h)
  obtain ⟨l2, hl2⟩ := trimRight_decomp (trimLeft l)
  exact noTag_append_left (trimSpace l) l2 (by rw [show trimSpace l ++ l2 = trimLeft l from hl2.symm]; exact h1)

/-! ### C5: well-formed tagged input -/

/-- Recognizer for strings made only of plain text (no stray brackets) and
complete, non-nested tags: the state says whether the scan is inside a
`<`...`>` group. -/
def wfScan (inside : Bool) : List Char → Bool
  | [] => !inside
  | c :: rest =>
    if c = '<' then
      if inside then false else wfScan true rest
    else if c = '>' then
      if inside then wfScan false rest else false
    else wfScan inside rest

/-- A string containing only well-formed, non-overlapping tags. -/
def wellFormedTags (l : List Char) : Bool := wfScan false l

theorem wfScan_inside (rest : List Char) (h : wfScan true rest = true) :
    ∃ rest', findGt rest = some rest' ∧ wfScan false rest' = true := by
  induction rest with
  | nil => simp [wfScan] at h
  | cons c r ih =>
    by_cases hlt : c = '<'
    · simp [wfScan, hlt] at h
    · by_cases hgt : c = '>'
      · refine ⟨r, ?_, ?_⟩
        · simp [findGt, hgt]
        · simpa [wfScan, hlt, hgt] using h
      · have h' : wfScan true r = true := by simpa [wfScan, hlt, hgt] using h
        obtain ⟨rest', h1, h2⟩ := ih h'
        exact ⟨rest', by simp [findGt, hgt, h1], h2⟩

theorem stripTagsF_wellFormed :
    ∀ f l, l.length ≤ f → wfScan false l = true →
      '<' ∉ stripTagsF f l ∧ '>' ∉ stripTagsF f l := by
  intro f
  induction f with
  | zero =>
    intro l hf _
    have : l = [] := List.eq_nil_of_length_eq_zero (Nat.le_zero.mp hf)
    subst this
    simp [stripTagsF]
  | succ f ih =>
    intro l hf h
    cases l with
    | nil => simp [stripTagsF]
    | cons c rest =>
      have hrest : rest.length ≤ f := by simpa using hf
      simp only [stripTagsF]
      by_cases hlt : c = '<'
      · rw [if_pos hlt]
        have h' : wfScan true rest = true := by simpa [wfScan, hlt] using h
        obtain ⟨rest', h1, h2⟩ := wfScan_inside rest h'
        rw [h1]
        exact ih rest' (Nat.le_trans (Nat.le_of_lt (findGt_length rest rest' h1)) hrest) h2
      · by_cases hgt : c = '>'
        · simp [wfScan, hlt, hgt] at h
        · rw [if_neg hlt]
          have h' : wfScan false rest = true := by simpa [wfScan, hlt, hgt] using h
          have := ih rest hrest h'
          constructor
          · simp only [List.mem_cons, not_or]
            exact ⟨fun hc => hlt hc.symm, this.1⟩
          · simp only [List.mem_cons, not_or]
            exact ⟨fun hc => hgt hc.symm, this.2⟩

theorem mem_trimSpace (l : List Char) (c : Char) (h : c ∈ trimSpace l) : c ∈ l := by
  obtain ⟨l2, hl2⟩ := trimRight_decomp (trimLeft l)
  obtain ⟨l1, hl1⟩ := dropWhile_suffix_decomp goIsSpace l
  have hc1 : c ∈ trimLeft l := by
    rw [hl2]
    exact List.mem_append_left l2 h
  rw [hl1]
  exact List.mem_append_right l1 hc1

/-- C5: on input containing only well-formed, non-overlapping tags, the
sanitizer removes every tag: the result contains neither `<` nor `>`. -/
theorem removeTags_no_brackets (l : List Char) (h : wellFormedTags l = true) :
    '<' ∉ removeTags l ∧ '>' ∉ removeTags l := by
  have hstrip := stripTagsF_wellFormed l.length l (Nat.le_refl _) h
  constructor
  · intro hmem
    have h1 := mem_trimSpace _ '<' hmem
    rcases mem_replaceNbsp _ '<' h1 with h2 | h2
    · exact hstrip.1 h2
    · exact absurd h2 (by decide)
  · intro hmem
    have h1 := mem_trimSpace _ '>' hmem
    rcases mem_replaceNbsp _ '>' h1 with h2 | h2
    · exact hstrip.2 h2
    · exact absurd h2 (by decide)

/-- Witness for C5 at a concrete well-formed tagged input. -/
theorem removeTags_no_brackets_witness :
    '<' ∉ removeTags "<p>Hello <b>world</b></p>".data ∧
    '>' ∉ removeTags "<p>Hello <b>world</b></p>".data :=
  removeTags_no_brackets "<p>Hello <b>world</b></p>".data (by decide)

/-! ### C9: trimming is the last step and is a projection -/

theorem dropWhile_idem (p : Char → Bool) (l : List Char) :
    (l.dropWhile p).dropWhile p = l.dropWhile p := by
  induction l with
  | nil => rfl
  | cons c rest ih =>
    by_cases hc : p c = true
    · simp [List.dropWhile_cons, hc, ih]
    · simp [List.dropWhile_cons, hc]

theorem dropWhile_length_le (p : Char → Bool) (l : List Char) :
    (l.dropWhile p).length ≤ l.length := by
  induction l with
  | nil => exact Nat.le_refl _
  | cons c rest ih =>
    by_cases hc : p c = true
    · simp only [List.dropWhile_cons, hc, if_true]
      exact Nat.le_trans ih (Nat.le_succ _)
    · simp [List.dropWhile_cons, hc]

theorem trimRight_idem (l : List Char) : trimRight (trimRight l) = trimRight l := by
  simp only [trimRight, List.reverse_reverse]
  rw [dropWhile_idem]

theorem trimLeft_fixed_head (c : Char) (v' : List Char)
    (h : trimLeft (c :: v') = c :: v') : goIsSpace c = false := by
  by_contra hc
  simp only [Bool.not_eq_false] at hc
  simp only [trimLeft, List.dropWhile_cons, hc, if_true] at h
  have h1 := congrArg List.length h
  have h2 := dropWhile_length_le goIsSpace v'
  simp only [List.length_cons] at h1
  omega

theorem dropWhile_append_last (p : Char → Bool) (c : Char) (hc : p c = false) :
    ∀ a : List Char, ∃ m, (a ++ [c]).dropWhile p = m ++ [c] := by
  intro a
  induction a with
  | nil => exact ⟨[], by simp [List.dropWhile_cons, hc]⟩
  | cons x a' ih =>
    by_cases hx : p x = true
    · obtain ⟨m, hm⟩ := ih
      exact ⟨m, by simp [List.dropWhile_cons, hx, hm]⟩
    · exact ⟨x :: a', by simp [List.dropWhile_cons, hx]⟩

theorem trimLeft_trimRight_fixed (v : List Char) (h : trimLeft v = v) :
    trimLeft (trimRight v) = trimRight v := by
  cases v with
  | nil => rfl
  | cons c v' =>
    have hc : goIsSpace c = false := trimLeft_fixed_head c v' h
    obtain ⟨m, hm⟩ := dropWhile_append_last goIsSpace c hc v'.reverse
    simp only [trimRight, List.reverse_cons, hm]
    rw [show (m ++ [c]).reverse = c :: m.reverse by simp]
    simp [trimLeft, List.dropWhile_cons, hc]

/-- The two trim halves fix every `trimSpace` output. -/
theorem trimSpace_trim (w : List Char) :
    trimLeft (trimSpace w) = trimSpace w ∧ trimRight (trimSpace w) = trimSpace w :=
  ⟨trimLeft_trimRight_fixed (trimLeft w) (dropWhile_idem goIsSpace w),
   trimRight_idem (trimLeft w)⟩

/-- C9: for every input, the sanitizer's output carries no leading and no
trailing whitespace — trimming is the last pipeline step, so even spaces
produced at the edges by the `&nbsp;` replacement are removed. -/
theorem removeTags_trimmed (l : List Char) :
    trimLeft (removeTags l) = removeTags l ∧
    trimRight (removeTags l) = removeTags l :=
  trimSpace_trim (replaceNbsp (stripTags l))

/-! ### C6: sanitize is idempotent -/

/-- Whether `&nbsp;` occurs anywhere in the list. -/
def hasNbsp : List Char → Bool
  | [] => false
  | c :: rest => if (c :: rest).take 6 = nbsp then true else hasNbsp rest

theorem replaceNbsp_take1 (m : List Char)
    (h : (replaceNbsp m).take 1 = [';']) : m.take 1 = [';'] := by
  cases m with
  | nil => simp [replaceNbsp_nil] at h
  | cons c rest =>
    by_cases hhit : (c :: rest).take 6 = nbsp
    · rw [replaceNbsp_cons_hit c rest hhit] at h
      simp [List.take_succ_cons] at h
    · rw [replaceNbsp_cons_miss c rest hhit] at h
      simp only [List.take_succ_cons, List.take_zero, List.cons.injEq] at h ⊢
      exact ⟨h.1, trivial⟩

theorem replaceNbsp_take2 (m : List Char)
    (h : (replaceNbsp m).take 2 = ['p', ';']) : m.take 2 = ['p', ';'] := by
  cases m with
  | nil => simp [replaceNbsp_nil] at h
  | cons c rest =>
    by_cases hhit : (c :: rest).take 6 = nbsp
    · rw [replaceNbsp_cons_hit c rest hhit] at h
      simp [List.take_succ_cons] at h
    · rw [replaceNbsp_cons_miss c rest hhit] at h
      simp only [List.take_succ_cons, List.cons.injEq] at h ⊢
      exact ⟨h.1, replaceNbsp_take1 rest h.2⟩

theorem replaceNbsp_take3 (m : List Char)
    (h : (replaceNbsp m).take 3 = ['s', 'p', ';']) : m.take 3 = ['s', 'p', ';'] := by
  cases m with
  | nil => simp [replaceNbsp_nil] at h
  | cons c rest =>
    by_cases hhit : (c :: rest).take 6 = nbsp
    · rw [replaceNbsp_cons_hit c rest hhit] at h
      simp [List.take_succ_cons] at h
    · rw [replaceNbsp_cons_miss c rest hhit] at h
      simp only [List.take_succ_cons, List.cons.injEq] at h ⊢
      exact ⟨h.1, replaceNbsp_take2 rest h.2⟩

theorem replaceNbsp_take4 (m : List Char)
    (h : (replaceNbsp m).take 4 = ['b', 's', 'p', ';']) :
    m.take 4 = ['b', 's', 'p', ';'] := by
  cases m with
  | nil => simp [replaceNbsp_nil] at h
  | cons c rest =>
    by_cases hhit : (c :: rest).take 6 = nbsp
    · rw [replaceNbsp_cons_hit c rest hhit] at h
      simp [List.take_succ_cons] at h
    · rw [replaceNbsp_cons_miss c rest hhit] at h
      simp only [List.take_succ_cons, List.cons.injEq] at h ⊢
      exact ⟨h.1, replaceNbsp_take3 rest h.2⟩

theorem replaceNbsp_take5 (m : List Char)
    (h : (replaceNbsp m).take 5 = ['n', 'b', 's', 'p', ';']) :
    m.take 5 = ['n', 'b', 's', 'p', ';'] := by
  cases m with
  | nil => simp [replaceNbsp_nil] at h
  | cons c rest =>
    by_cases hhit : (c :: rest).take 6 = nbsp
    · rw [replaceNbsp_cons_hit c rest hhit] at h
      simp [List.take_succ_cons] at h
    · rw [replaceNbsp_cons_miss c rest hhit] at h
      simp only [List.take_succ_cons, List.cons.injEq] at h ⊢
      exact ⟨h.1, replaceNbsp_take4 rest h.2⟩

/-- The output of `replaceNbsp` contains no occurrence of `&nbsp;`. -/
theorem hasNbsp_replaceNbspF :
    ∀ f l, l.length ≤ f → hasNbsp (replaceNbspF f l) = false := by
  intro f
  induction f with
  | zero =>
    intro l hf
    have : l = [] := List.eq_nil_of_length_eq_zero (Nat.le_zero.mp hf)
    subst this; rfl
  | succ f ih =>
    intro l hf
    cases l with
    | nil => rfl
    | cons c rest =>
      have hrest : rest.length ≤ f := by simpa using hf
      simp only [replaceNbspF]
      split <;> rename_i hcond
      · simp only [hasNbsp]
        rw [if_neg ?hne]
        · exact ih (rest.drop 5) (Nat.le_trans (by simp [Nat.sub_le]) hrest)
        case hne =>
          intro habs
          rw [List.take_succ_cons] at habs
          simp [nbsp] at habs
      · simp only [hasNbsp]
        rw [if_neg ?hne2]
        · exact ih rest hrest
        case hne2 =>
          intro habs
          rw [replaceNbspF_eq f rest hrest, List.take_succ_cons] at habs
          have h1 : c = '&' ∧ (replaceNbsp rest).take 5 = ['n', 'b', 's', 'p', ';'] := by
            simpa [nbsp] using habs
          have h2 := replaceNbsp_take5 rest h1.2
          apply hcond
          rw [List.take_succ_cons, h1.1, h2]
          rfl

theorem hasNbsp_replaceNbsp (l : List Char) : hasNbsp (replaceNbsp l) = false :=
  hasNbsp_replaceNbspF l.length l (Nat.le_refl _)

/-- A string without `&nbsp;` is a fixed point of `replaceNbsp`. -/
theorem replaceNbsp_of_hasNbsp_false (l : List Char) (h : hasNbsp l = false) :
    replaceNbsp l = l := by
  induction l with
  | nil => rfl
  | cons c rest ih =>
    simp only [hasNbsp] at h
    split at h <;> rename_i hcond
    · cases h
    · rw [replaceNbsp_cons_miss c rest hcond, ih h]

theorem take_append_le : ∀ (n : Nat) (l1 l2 : List Char), n ≤ l1.length →
    (l1 ++ l2).take n = l1.take n := by
  intro n
  induction n with
  | zero => intros; rfl
  | succ n ih =>
    intro l1 l2 h
    cases l1 with
    | nil => simp at h
    | cons c l1' =>
      simp only [List.cons_append, List.take_succ_cons]
      rw [ih l1' l2 (by simpa using h)]

theorem hasNbsp_append_right (l1 l2 : List Char)
    (h : hasNbsp (l1 ++ l2) = false) : hasNbsp l2 = false := by
  induction l1 with
  | nil => exact h
  | cons c l1' ih =>
    simp only [List.cons_append, hasNbsp] at h
    split at h
    · cases h
    · exact ih h

theorem hasNbsp_append_left (l1 l2 : List Char)
    (h : hasNbsp (l1 ++ l2) = false) : hasNbsp l1 = false := by
  induction l1 with
  | nil => rfl
  | cons c l1' ih =>
    simp only [List.cons_append, hasNbsp] at h
    split at h <;> rename_i hcond
    · cases h
    · simp only [hasNbsp]
      rw [if_neg ?hne3]
      · exact ih h
      case hne3 =>
        intro habs
        apply hcond
        have hlen : 6 ≤ (c :: l1').length := by
          have h6 := congrArg List.length habs
          simp only [List.length_take, nbsp] at h6
          simp only [List.length_cons] at h6 ⊢
          omega
        calc (c :: (l1' ++ l2)).take 6 = ((c :: l1') ++ l2).take 6 := by simp
          _ = (c :: l1').take 6 := take_append_le 6 _ l2 hlen
          _ = nbsp := habs

/-- C6: the sanitizer is idempotent on every string: the output has no
remaining tag match, no remaining `&nbsp;`, and no whitespace edge, so a
second application changes nothing. -/
theorem removeTagsStr_idem (s : String) :
    removeTagsStr (removeTagsStr s) = removeTagsStr s := by
  show (⟨removeTags (removeTags s.data)⟩ : String) = ⟨removeTags s.data⟩
  have hnt : noTag (removeTags s.data) = true :=
    noTag_trimSpace _ (noTag_replaceNbsp _ (noTag_stripTags s.data))
  have hnb : hasNbsp (removeTags s.data) = false := by
    have h1 : hasNbsp (replaceNbsp (stripTags s.data)) = false := hasNbsp_replaceNbsp _
    have h2 : hasNbsp ((replaceNbsp (stripTags s.data)).dropWhile goIsSpace) = false := by
      obtain ⟨l1, hl1⟩ := dropWhile_suffix_decomp goIsSpace (replaceNbsp (stripTags s.data))
      exact hasNbsp_append_right l1 _ (by rw [← hl1]; exact h1)
    obtain ⟨l2, hl2⟩ := trimRight_decomp (trimLeft (replaceNbsp (stripTags s.data)))
    have h3 : hasNbsp (trimRight (trimLeft (replaceNbsp (stripTags s.data)))) = false := by
      refine hasNbsp_append_left _ l2 ?_
      rw [← hl2]
      exact h2
    exact h3
  have heq : removeTags (removeTags s.data) = removeTags s.data := by
    show trimSpace (replaceNbsp (stripTags (removeTags s.data))) = removeTags s.data
    rw [stripTags_of_noTag _ hnt, replaceNbsp_of_hasNbsp_false _ hnb]
    have ht := trimSpace_trim (replaceNbsp (stripTags s.data))
    have ht1 : trimLeft (removeTags s.data) = removeTags s.data := ht.1
    have ht2 : trimRight (removeTags s.data) = removeTags s.data := ht.2
    show trimRight (trimLeft (removeTags s.data)) = removeTags s.data
    rw [ht1, ht2]
  rw [heq]

end Adncli
